import Mathlib

/-!
Verification of the `bit_vector` library: a shallow embedding of
`src/lib.rs`, `src/rank.rs`, `src/select.rs` and `src/select_table.rs`
into Lean, followed by theorems settling the specification claims.

Modelling conventions:
* machine words (`Unit = u64`, the default feature) are `Nat` values kept
  below `2 ^ 64`; arithmetic that can wrap in Rust is made explicit with
  `% 2 ^ 64` (or `% 2 ^ 16` / `% 2 ^ 32` for the narrower casts);
* Rust code that can panic (slice indexing out of bounds, `unwrap`/`expect`
  on `None`, integer division by zero, `usize` subtraction overflow,
  `ilog2` of zero) is modelled in the `Option` monad, `none` meaning the
  call panics;
* loops become folds (`foldl` / `foldlM`) over explicit index ranges, and
  all recursion is structural so that every definition evaluates inside
  the kernel.
-/

/-- Word width of the default `Unit = u64` base type (`UNIT_SIZE_BITS`). -/
def UNIT_SIZE_BITS : Nat := 64

/-- Fuel-bounded population count; `popcountAux w n` counts the set bits
among the low `w` bits of `n`.  With `w` the bit width of the machine type
this is exactly Rust's `count_ones`. -/
def popcountAux : Nat → Nat → Nat
  | 0, _ => 0
  | fuel + 1, n => n % 2 + popcountAux fuel (n / 2)

/-- `u64::count_ones` (arguments in this development are `< 2 ^ 64`). -/
def popcount (n : Nat) : Nat := popcountAux 64 n

/-- Fuel-bounded base-2 integer logarithm, `usize::ilog2` on positive
arguments below `2 ^ 64` (Rust panics on `0`; callers guard for that). -/
def ilog2Aux : Nat → Nat → Nat
  | 0, _ => 0
  | fuel + 1, n => if 2 ≤ n then ilog2Aux fuel (n / 2) + 1 else 0

/-- `usize::ilog2` for positive inputs. -/
def ilog2 (n : Nat) : Nat := ilog2Aux 64 n

/-- Floor of the real square root, the value of `(x as f64).sqrt() as usize`
for the small arguments (`x ≤ 63`) produced by the library, where `f64`
rounding cannot cross an integer boundary. -/
def floorSqrt (n : Nat) : Nat :=
  (List.range (n + 1)).foldl (fun acc k => if k * k ≤ n then k else acc) 0

/-- Rust's `usize::div_ceil`. -/
def divCeil (a b : Nat) : Nat := (a + b - 1) / b

/-- The rank acceleration structure (`RankAccelerator` in `src/rank.rs`).
`blocks` entries are `u16` (values are reduced `% 2 ^ 16` when pushed). -/
structure RankAccelerator where
  blocks : List Nat
  super_blocks : List Nat
  block_size : Nat
  super_block_size : Nat

/-- A block of the select acceleration structure (`Block` in
`src/select.rs`): either a lookup table of global positions or the offset
of the block inside the bit vector. -/
inductive SBlock where
  | LargeBlock (select_table : List Nat)
  | SmallBlock (offset : Nat)

/-- A super block of the select acceleration structure (`SuperBlock` in
`src/select.rs`). -/
inductive SSuperBlock where
  | LargeSuperBlock (select_table : List Nat)
  | SmallSuperBlock (blocks : List SBlock)

/-- The select acceleration structure (`SelectAccelerator<BIT>` in
`src/select.rs`); the const generic `BIT` is modelled as the field `BIT`. -/
structure SelectAccelerator where
  BIT : Bool
  super_blocks : List SSuperBlock
  zeros_per_super_block : Nat
  zeros_per_block : Nat
  large_super_block_size : Nat
  large_block_size : Nat

/-- The bit vector itself (`BitVector` in `src/lib.rs`): the packed words,
the number of valid bits, and the optional accelerators. -/
structure BitVector where
  data : List Nat
  len : Nat
  rank_accelerator : Option RankAccelerator
  select_accelerator_0 : Option SelectAccelerator
  select_accelerator_1 : Option SelectAccelerator

/-- Little-endian value of a list of bits (specification-side helper used
to describe the packed words). -/
def bitsToNat (l : List Bool) : Nat :=
  l.foldr (fun b acc => (if b then 1 else 0) + 2 * acc) 0

/-- The packing loop of `BitVector::load_from_string`: iterates over the
parsed bits with their index `i`, pushing the word accumulator `tmp` into
the data vector whenever `i` is a positive multiple of the word width and
setting bit `i % 64` of `tmp` for every `'1'` character. -/
def packLoop : List Bool → Nat → Nat → List Nat → List Nat × Nat
  | [], _, tmp, acc => (acc, tmp)
  | b :: rest, i, tmp, acc =>
    if i ≠ 0 ∧ i % UNIT_SIZE_BITS = 0 then
      packLoop rest (i + 1) (if b then 0 ||| (1 <<< (i % UNIT_SIZE_BITS)) else 0) (acc ++ [tmp])
    else
      packLoop rest (i + 1) (if b then tmp ||| (1 <<< (i % UNIT_SIZE_BITS)) else tmp) acc

/-- `BitVector::load_from_string`: parses the characters (`c == '1'`),
packs them LSB-first into 64-bit words, pushes the final partial word and
records the length.  No accelerators are initialised. -/
def load_from_string (s : List Char) : BitVector :=
  let bits := s.map (fun c => c == '1')
  let r := packLoop bits 0 0 []
  { data := r.1 ++ [r.2], len := s.length,
    rank_accelerator := none,
    select_accelerator_0 := none,
    select_accelerator_1 := none }

/-- `BitVector::access`: the bit at `index`; `none` models the panic of the
out-of-bounds slice access `self.data[vec_index]`. -/
def BitVector.access (bv : BitVector) (index : Nat) : Option Nat :=
  (bv.data.get? (index / UNIT_SIZE_BITS)).map
    (fun w => (w >>> (index % UNIT_SIZE_BITS)) &&& 1)

/-- `BitVector::access_block`: the 64-bit window whose LSB is bit `index`.
The upper contribution `data[vec_index + 1] << (64 - shift)` is a `u64`
shift, hence the `% 2 ^ 64`. -/
def BitVector.access_block (bv : BitVector) (index : Nat) : Option Nat :=
  match bv.data.get? (index / UNIT_SIZE_BITS) with
  | none => none
  | some w =>
    if index / UNIT_SIZE_BITS = bv.data.length - 1 ∨ index % UNIT_SIZE_BITS = 0 then
      some (w >>> (index % UNIT_SIZE_BITS))
    else
      match bv.data.get? (index / UNIT_SIZE_BITS + 1) with
      | none => none
      | some w2 =>
        some ((w >>> (index % UNIT_SIZE_BITS)) |||
          ((w2 <<< (UNIT_SIZE_BITS - index % UNIT_SIZE_BITS)) % 2 ^ UNIT_SIZE_BITS))

/-- `BitVector::count_ones` on the range `[start, stop)`: sums `popcount`
over the 64-bit windows stepped from `start`, masking the last window to
`(stop - start) % 64` bits (`0` bits when the length is an exact multiple
of 64, faithfully reproducing the source).  `none` models the panics on an
empty range (`blocks.len() - 1` underflow / `last().unwrap()`) and on an
out-of-range window access. -/
def BitVector.count_ones (bv : BitVector) (start stop : Nat) : Option Nat := do
  let blocks ← ((List.range (divCeil (stop - start) UNIT_SIZE_BITS)).map
      (fun k => start + UNIT_SIZE_BITS * k)).mapM bv.access_block
  match blocks.getLast? with
  | none => none
  | some last_block =>
    let result := (blocks.take (blocks.length - 1)).foldl (fun a b => a + popcount b) 0
    let mask := if (stop - start) % UNIT_SIZE_BITS = 0 then 0
      else (1 <<< ((stop - start) % UNIT_SIZE_BITS)) - 1
    pure (result + popcount (last_block &&& mask))

/-- `RankAccelerator::get_ones`: ones among the low `index` bits of the
`u32` truncation of a block. -/
def get_ones (block : Nat) (index : Nat) : Nat :=
  popcountAux 32 (block &&& ((1 <<< index) - 1))

/-- `RankAccelerator::init`: derives the block sizes from the vector
length (panicking on length 0 through `ilog2`), then builds the running
super-block counts and the per-super-block cumulative block counts with
`count_ones`.  The `break` on `block_start >= len` is modelled by skipping
every later block of that super block (`block_start` is monotone). -/
def RankAccelerator.init (bv : BitVector) : Option RankAccelerator := do
  if bv.len = 0 then none else
  let block_size := max (ilog2 bv.len / 2) 1
  let super_block_size := block_size ^ 2
  let first ← bv.count_ones 0 super_block_size
  let super_blocks ← (List.range' 1 (divCeil bv.len super_block_size - 1)).foldlM
    (fun acc cur => do
      let prev ← acc.get? (cur - 1)
      let c ← bv.count_ones (cur * super_block_size)
        (min ((cur + 1) * super_block_size) bv.len)
      pure (acc ++ [prev + c]))
    [first]
  let blocks ← (List.range (divCeil bv.len super_block_size)).foldlM
    (fun blocks sb => do
      let c0 ← bv.count_ones (sb * super_block_size)
        (min (sb * super_block_size + block_size) bv.len)
      (List.range' 1 (block_size - 1)).foldlM
        (fun blocks cb => do
          let block_start := sb * super_block_size + cb * block_size
          let block_end := min (sb * super_block_size + (cb + 1) * block_size) bv.len
          if bv.len ≤ block_start then pure blocks else do
            let prev ← blocks.get? (block_size * sb + cb - 1)
            let c ← bv.count_ones block_start block_end
            pure (blocks ++ [(prev + c) % 2 ^ 16]))
        (blocks ++ [c0 % 2 ^ 16]))
    []
  pure { blocks := blocks, super_blocks := super_blocks,
         block_size := block_size, super_block_size := super_block_size }

/-- `RankAccelerator::rank`: super-block count + block count + in-block
popcount (on the `u32` truncation of the window), with
`rank(false, i) = i - rank(true, i)`.  `none` models the panics: division
by a zero block size, out-of-bounds `blocks[block - 1]`, and the
out-of-bounds window read `access_block(block_start)`. -/
def RankAccelerator.rank (acc : RankAccelerator) (bit : Bool) (index : Nat)
    (bv : BitVector) : Option Nat := do
  if acc.super_block_size = 0 ∨ acc.block_size = 0 then none else
  let super_block := index / acc.super_block_size
  let block := index / acc.block_size
  let block_start := index / acc.block_size * acc.block_size
  let result1 := if super_block = 0 then 0 else (acc.super_blocks.get? (super_block - 1)).getD 0
  let result2 ← if block % (acc.super_block_size / acc.block_size) = 0 then pure 0
    else acc.blocks.get? (block - 1)
  let w ← bv.access_block block_start
  let result3 := get_ones (w % 2 ^ 32) (index % acc.block_size)
  let result := result1 + result2 + result3
  pure (if bit then result else index - result)

/-- `BitVector::init_rank_structures`. -/
def BitVector.init_rank_structures (bv : BitVector) : Option BitVector := do
  let r ← RankAccelerator.init bv
  pure { bv with rank_accelerator := some r }

/-- `BitVector::rank`; `none` covers both the `expect` on an uninitialised
accelerator and any panic inside the accelerator. -/
def BitVector.rank (bv : BitVector) (bit : Bool) (index : Nat) : Option Nat := do
  let acc ← bv.rank_accelerator
  acc.rank bit index bv

/-- The scan loop of `select_with_table` in `src/select_table.rs`:
walks the 64 bits of `data` from the LSB, counting bits equal to `bit`,
and returns the position of the match with 0-based rank `index`. -/
def selectLoop (bit : Bool) (index : Nat) : Nat → Nat → Nat → Nat → Option Nat
  | 0, _, _, _ => none
  | fuel + 1, i, data, counter =>
    if (data &&& 1) = (if bit then 1 else 0) then
      if counter = index then some i
      else selectLoop bit index fuel (i + 1) (data >>> 1) (counter + 1)
    else selectLoop bit index fuel (i + 1) (data >>> 1) counter

/-- `select_with_table` (`src/select_table.rs`): position of the
`(index + 1)`-th bit of `data` equal to `bit`, scanning 64 bits; `none`
when there are not enough such bits. -/
def select_with_table (bit : Bool) (data : Nat) (index : Nat) : Option Nat :=
  selectLoop bit index 64 0 data 0

/-- `SelectAccelerator::calc_select_table`: the global indices of the bits
inside `[start, stop)` whose value is `BIT`. -/
def calc_select_table (BIT : Bool) (bv : BitVector) (start stop : Nat) :
    Option (List Nat) :=
  (List.range' start (stop - start)).foldlM
    (fun acc j => do
      let a ← bv.access j
      pure (if a = (if BIT then 1 else 0) then acc ++ [j] else acc))
    []

/-- `SelectAccelerator::create_small_super_block`: splits
`[start, stop)` into blocks of `zeros_per_block` occurrences (the last
block is flushed at `stop - 1` regardless), each either a large block with
a lookup table or a small block holding only its offset. -/
def create_small_super_block (BIT : Bool) (bv : BitVector)
    (zeros_per_block large_block_size start stop : Nat) : Option SSuperBlock := do
  let st ← (List.range' start (stop - start)).foldlM
    (fun (st : List SBlock × Nat × Nat) j => do
      let a ← bv.access j
      let zeroes := st.2.1 + (if BIT then a else 1 - a)
      if zeroes ≠ zeros_per_block ∧ j ≠ stop - 1 then pure (st.1, zeroes, st.2.2)
      else do
        let next := j + 1
        let b ← if large_block_size ≤ next - st.2.2 then do
            let t ← calc_select_table BIT bv st.2.2 next
            pure (SBlock.LargeBlock t)
          else pure (SBlock.SmallBlock st.2.2)
        pure (st.1 ++ [b], 0, next))
    ([], 0, start)
  pure (SSuperBlock.SmallSuperBlock st.1)

/-- `SelectAccelerator::init`: derives the parameters from the vector
length (panicking on length 0 through `ilog2`), then walks the vector
counting occurrences of `BIT`, flushing a super block every
`zeros_per_super_block` occurrences and at the end of the vector; a super
block spanning at least `large_super_block_size` bits becomes a lookup
table, otherwise it is split into blocks. -/
def SelectAccelerator.init (BIT : Bool) (bv : BitVector) : Option SelectAccelerator := do
  if bv.len = 0 then none else
  let zeros_per_super_block := ilog2 bv.len ^ 2
  let large_super_block_size := zeros_per_super_block ^ 2
  let large_block_size := ilog2 bv.len
  let zeros_per_block := floorSqrt large_block_size
  let st ← (List.range bv.len).foldlM
    (fun (st : List SSuperBlock × Nat × Nat) i => do
      let a ← bv.access i
      let zeroes := st.2.1 + (if BIT then a else 1 - a)
      if zeroes ≠ zeros_per_super_block ∧ i ≠ bv.len - 1 then pure (st.1, zeroes, st.2.2)
      else do
        let next := i + 1
        let sb ← if large_super_block_size ≤ next - st.2.2 then do
            let t ← calc_select_table BIT bv st.2.2 next
            pure (SSuperBlock.LargeSuperBlock t)
          else create_small_super_block BIT bv zeros_per_block large_block_size st.2.2 next
        pure (st.1 ++ [sb], 0, next))
    ([], 0, 0)
  pure { BIT := BIT, super_blocks := st.1,
         zeros_per_super_block := zeros_per_super_block,
         zeros_per_block := zeros_per_block,
         large_super_block_size := large_super_block_size,
         large_block_size := large_block_size }

/-- `SelectAccelerator::select`: the position of the `(index + 1)`-th
occurrence of `BIT` (0-based `index`).  `none` models the panics: division
by a zero `zeros_per_super_block` / `zeros_per_block` (Rust `usize`
division by zero), out-of-bounds lookups in `super_blocks`, `blocks` and
the select tables, and the `expect` on `select_with_table`. -/
def SelectAccelerator.select (acc : SelectAccelerator) (index : Nat)
    (bv : BitVector) : Option Nat := do
  if acc.zeros_per_super_block = 0 then none else
  match ← acc.super_blocks.get? (index / acc.zeros_per_super_block) with
  | SSuperBlock.LargeSuperBlock select_table =>
    select_table.get? (index % acc.zeros_per_super_block)
  | SSuperBlock.SmallSuperBlock blocks =>
    if acc.zeros_per_block = 0 then none else
    match ← blocks.get? (index % acc.zeros_per_super_block / acc.zeros_per_block) with
    | SBlock.LargeBlock select_table =>
      select_table.get? (index % acc.zeros_per_super_block % acc.zeros_per_block)
    | SBlock.SmallBlock offset => do
      let w ← bv.access_block offset
      let p ← select_with_table acc.BIT w
        (index % acc.zeros_per_super_block % acc.zeros_per_block)
      pure (offset + p)

/-- `BitVector::init_select_structures`: builds both accelerators. -/
def BitVector.init_select_structures (bv : BitVector) : Option BitVector := do
  let a0 ← SelectAccelerator.init false bv
  let a1 ← SelectAccelerator.init true bv
  pure { bv with select_accelerator_0 := some a0, select_accelerator_1 := some a1 }

/-- `BitVector::init`: rank structures, then select structures. -/
def BitVector.init (bv : BitVector) : Option BitVector := do
  let bv1 ← bv.init_rank_structures
  bv1.init_select_structures

/-- `BitVector::select` (1-based `index`): dispatches to the accelerator
for the requested bit with `index - 1`.  `none` models the `expect` on an
uninitialised accelerator and the debug-mode panic of the `usize`
subtraction `index - 1` when `index = 0`. -/
def BitVector.select (bv : BitVector) (bit : Bool) (index : Nat) : Option Nat := do
  if index = 0 then none else
  if bit then do
    let acc ← bv.select_accelerator_1
    acc.select (index - 1) bv
  else do
    let acc ← bv.select_accelerator_0
    acc.select (index - 1) bv

/-- Specification-side companion of `selectLoop`: the ascending list of
positions (among the low `fuel` bits of `data`) holding a bit equal to
`bit`. -/
def occList (bit : Bool) : Nat → Nat → List Nat
  | 0, _ => []
  | fuel + 1, data =>
    if (data &&& 1) = (if bit then 1 else 0) then
      0 :: (occList bit fuel (data >>> 1)).map (· + 1)
    else (occList bit fuel (data >>> 1)).map (· + 1)

/-- The word list produced by `load_from_string` (packing loop result plus
the final push of the word accumulator). -/
def loadWords (bs : List Bool) : List Nat :=
  (packLoop bs 0 0 []).1 ++ [(packLoop bs 0 0 []).2]

set_option maxRecDepth 400000

/-- C1: REFUTED (code bug).  `count_ones` is claimed to return the number
of 1-bits of any range `[lo, hi)` with `lo < hi ≤ n`, in particular when
`hi - lo` is an exact multiple of the word width.  On the vector built
from 64 `'1'` characters the range `[0, 64)` contains 64 ones, but
`count_ones` returns 0: the final window's mask is `0` when
`(hi - lo) % 64 = 0`, so the last (here: only) window is dropped
entirely. -/
theorem c1_count_ones_drops_full_last_window :
    (load_from_string (List.replicate 64 '1')).count_ones 0 64 = some 0 ∧
    (List.replicate 64 '1').count '1' = 64 := by decide

/-- C2: REFUTED (code bug).  On a vector of length 192 the rank structures
initialise fine (block size 3, super block size 9), and the claim says
`rank(b, n)` returns the total count (192 ones here); but the query
`rank(true, 192)` evaluates `access_block(192)`, whose word index 3 is one
past the end of the 3-word data vector, so the Rust code panics
(`none` in this model) instead of returning 192. -/
theorem c2_rank_at_len_out_of_bounds :
    ((load_from_string (List.replicate 192 '1')).init_rank_structures).isSome = true ∧
    ((load_from_string (List.replicate 192 '1')).init_rank_structures >>=
      fun bv => bv.rank true 192) = none ∧
    (List.replicate 192 '1').count '1' = 192 := by decide

/-- C4: REFUTED (code bug).  The string `0011111111110010` has 5 zeros, so
`select(false, 6)` must be an error; instead the query walks into the
small (dense) block at offset 14 and `select_with_table` happily counts
the zero padding bits that lie beyond the bit vector inside the same
64-bit window, returning position 16 = n — an out-of-range position
rather than a failure. -/
theorem c4_select_overrun_returns_position :
    ((load_from_string
        ['0', '0', '1', '1', '1', '1', '1', '1', '1', '1', '1', '1', '0', '0', '1', '0']).init_select_structures >>=
      fun bv => bv.select false 6) = some 16 ∧
    (['0', '0', '1', '1', '1', '1', '1', '1', '1', '1', '1', '1', '0', '0', '1', '0'] : List Char).count '0' = 5 := by
  decide

/-- C5: REFUTED (code bug).  For a vector of length 1 the select
structures initialise (and the lookup table even contains the right
answer 0), but `zeros_per_super_block = ilog2(1)^2 = 0`, so the very
first step of `select`, `index / zeros_per_super_block`, divides by zero
and the Rust code panics instead of returning 0. -/
theorem c5_select_length_one_divides_by_zero :
    ((load_from_string ['1']).init_select_structures).isSome = true ∧
    ((load_from_string ['1']).init_select_structures >>=
      fun bv => bv.select true 1) = none := by decide

/-- C6: counterexample.  Constructing a bit vector from the malformed
string `"2"` does not fail: `load_from_string` returns a perfectly formed
vector of length 1 whose bit is 0 (every character other than `'1'` is
silently treated as a 0 bit). -/
theorem c6_malformed_input_not_rejected :
    (load_from_string ['2']).len = 1 ∧ (load_from_string ['2']).access 0 = some 0 := by
  decide

/-- C7: REFUTED (code bug).  The identity
`rank(true, i) + rank(false, i) = i` is claimed for every `i ≤ n`, but at
`n = i = 192` both queries panic (out-of-bounds `access_block(192)`, as in
the C2 analysis), so the sum is not even defined there. -/
theorem c7_rank_sum_panics_at_len :
    ((load_from_string (List.replicate 192 '0')).init_rank_structures >>=
      fun bv => bv.rank true 192) = none ∧
    ((load_from_string (List.replicate 192 '0')).init_rank_structures >>=
      fun bv => bv.rank false 192) = none := by decide

/-- The scan loop finds the `(index - counter)`-th remaining occurrence,
offset by the running position `i`. -/
theorem selectLoop_eq_occList (bit : Bool) (index : Nat) :
    ∀ fuel data i counter, counter ≤ index →
      selectLoop bit index fuel i data counter =
        ((occList bit fuel data).get? (index - counter)).map (· + i) := by
  intro fuel
  induction fuel with
  | zero => intro data i counter _; simp [selectLoop, occList]
  | succ fuel ih =>
    intro data i counter hci
    by_cases hbit : (data &&& 1) = (if bit then 1 else 0)
    · by_cases hc : counter = index
      · subst hc
        simp [selectLoop, occList, hbit]
      · have hlt : counter < index := Nat.lt_of_le_of_ne hci hc
        have hsub : index - counter = (index - (counter + 1)) + 1 := by omega
        rw [selectLoop, occList]
        simp only [hbit, if_pos rfl, if_neg hc, reduceIte]
        rw [ih (data >>> 1) (i + 1) (counter + 1) hlt, hsub]
        simp only [List.get?_cons_succ, List.get?_map]
        cases (occList bit fuel (data >>> 1)).get? (index - (counter + 1)) <;>
          simp [Nat.add_assoc, Nat.add_comm 1 i]
    · rw [selectLoop, occList]
      simp only [hbit, if_neg hbit, reduceIte]
      rw [ih (data >>> 1) (i + 1) counter hci]
      simp only [List.get?_map]
      cases (occList bit fuel (data >>> 1)).get? (index - counter) <;>
        simp [Nat.add_assoc, Nat.add_comm 1 i]

/-- `select_with_table` returns the `index`-th element of the occurrence
list of the low 64 bits. -/
theorem select_with_table_eq_occList (bit : Bool) (data index : Nat) :
    select_with_table bit data index = (occList bit 64 data).get? index := by
  rw [select_with_table, selectLoop_eq_occList bit index 64 data 0 0 (Nat.zero_le _),
    Nat.sub_zero]
  cases h : (occList bit 64 data).get? index <;> simp [h]

/-- The occurrence list is the filter of the position range by the value
of the corresponding bit. -/
theorem occList_eq_filter (bit : Bool) :
    ∀ fuel data, occList bit fuel data =
      (List.range fuel).filter (fun i => (data >>> i) &&& 1 == (if bit then 1 else 0)) := by
  intro fuel
  induction fuel with
  | zero => intro data; simp [occList]
  | succ fuel ih =>
    intro data
    have hsucc : (Nat.succ : Nat → Nat) = (fun x => x + 1) := funext fun _ => rfl
    have hfun : ((fun i => data >>> i &&& 1 == (if bit then 1 else 0)) ∘ (fun x => x + 1)) =
        (fun i => (data >>> 1) >>> i &&& 1 == (if bit then 1 else 0)) := by
      funext j
      simp only [Function.comp_apply]
      rw [Nat.add_comm j 1, Nat.shiftRight_add]
    rw [occList, List.range_succ_eq_map, hsucc, List.filter_cons, List.filter_map, hfun,
      ← ih (data >>> 1)]
    by_cases hbit : (data &&& 1) = (if bit then 1 else 0)
    · have hc : (data >>> 0 &&& 1 == (if bit then 1 else 0)) = true := by
        rw [Nat.shiftRight_zero, hbit]
        exact beq_self_eq_true _
      rw [if_pos hbit, hc, if_pos rfl]
    · have hc : (data >>> 0 &&& 1 == (if bit then 1 else 0)) = false := by
        rw [Nat.shiftRight_zero]
        exact beq_eq_false_iff_ne.mpr hbit
      rw [if_neg hbit, hc]
      simp

/-- C8: CONFIRMED.  For every 64-bit word `w`, bit value `b` and rank
`r < 64`, `select_with_table b w r` returns the `(r + 1)`-th position
(counted from the LSB, so an element of the ascending list of positions
`i < 64` whose bit equals `b`) when at least `r + 1` such bits exist, and
`none` otherwise: it equals the `r`-th entry of that position list. -/
theorem c8_select_with_table_spec (b : Bool) (w r : Nat) (hw : w < 2 ^ 64)
    (hr : r < 64) :
    select_with_table b w r =
      ((List.range 64).filter (fun i => w >>> i &&& 1 == (if b then 1 else 0))).get? r := by
  rw [select_with_table_eq_occList, occList_eq_filter]

/-- Witness for C8 at `b = true`, `w = 0b100110`, `r = 2`: the third set
bit sits at position 5. -/
theorem c8_select_with_table_spec_witness :
    (38 : Nat) < 2 ^ 64 ∧ (2 : Nat) < 64 ∧
      select_with_table true 38 2 =
        ((List.range 64).filter (fun i => (38 : Nat) >>> i &&& 1 == (if true then 1 else 0))).get? 2 ∧
      select_with_table true 38 2 = some 5 :=
  ⟨by decide, by decide, c8_select_with_table_spec true 38 2 (by decide) (by decide),
    by decide⟩

/-- Unfolding lemma for `bitsToNat` on a cons cell. -/
theorem bitsToNat_cons (b : Bool) (l : List Bool) :
    bitsToNat (b :: l) = (if b then 1 else 0) + 2 * bitsToNat l := rfl

/-- `bitsToNat` is bounded by `2 ^ length`. -/
theorem bitsToNat_lt (l : List Bool) : bitsToNat l < 2 ^ l.length := by
  induction l with
  | nil => simp [bitsToNat]
  | cons b l ih =>
    rw [bitsToNat_cons, List.length_cons, Nat.pow_succ]
    cases b <;> simp <;> omega

/-- The bits of `bitsToNat l` are the entries of `l` (false beyond the
end). -/
theorem bitsToNat_testBit (l : List Bool) : ∀ t, (bitsToNat l).testBit t = l.getD t false := by
  induction l with
  | nil => intro t; simp [bitsToNat]
  | cons b l ih =>
    intro t
    cases t with
    | zero =>
      rw [bitsToNat_cons, Nat.testBit_zero]
      have hmod : ((if b then 1 else 0) + 2 * bitsToNat l) % 2 = if b then 1 else 0 := by
        cases b <;> simp <;> omega
      rw [hmod]
      cases b <;> simp
    | succ t =>
      rw [bitsToNat_cons, ← Nat.testBit_div_two]
      have hdiv : ((if b then 1 else 0) + 2 * bitsToNat l) / 2 = bitsToNat l := by
        cases b <;> simp <;> omega
      rw [hdiv, ih t]
      simp

/-- Processing a concatenation threads the packing state through. -/
theorem packLoop_append (xs ys : List Bool) :
    ∀ i tmp acc, packLoop (xs ++ ys) i tmp acc =
      packLoop ys (i + xs.length) (packLoop xs i tmp acc).2 (packLoop xs i tmp acc).1 := by
  induction xs with
  | nil => intro i tmp acc; simp [packLoop]
  | cons b rest ih =>
    intro i tmp acc
    simp only [List.cons_append, List.length_cons, packLoop]
    rw [show i + (rest.length + 1) = (i + 1) + rest.length by omega]
    by_cases hc : i ≠ 0 ∧ i % UNIT_SIZE_BITS = 0
    · rw [if_pos hc, if_pos hc]
      exact ih (i + 1) _ _
    · rw [if_neg hc, if_neg hc]
      exact ih (i + 1) _ _

/-- The packing loop only depends on the index through `i % 64` and
`i ≠ 0`, so positive indices can be shifted by a word width. -/
theorem packLoop_shift (bs : List Bool) :
    ∀ i tmp acc, 1 ≤ i → packLoop bs (i + 64) tmp acc = packLoop bs i tmp acc := by
  induction bs with
  | nil => intro i tmp acc _; rfl
  | cons b rest ih =>
    intro i tmp acc hi
    have hmod : (i + 64) % UNIT_SIZE_BITS = i % UNIT_SIZE_BITS := Nat.add_mod_right i 64
    rw [packLoop, packLoop]
    by_cases hc : i ≠ 0 ∧ i % UNIT_SIZE_BITS = 0
    · have hc' : i + 64 ≠ 0 ∧ (i + 64) % UNIT_SIZE_BITS = 0 := ⟨by omega, by rw [hmod]; exact hc.2⟩
      rw [if_pos hc, if_pos hc', hmod]
      rw [show i + 64 + 1 = (i + 1) + 64 by omega]
      exact ih (i + 1) _ _ (by omega)
    · have hc' : ¬(i + 64 ≠ 0 ∧ (i + 64) % UNIT_SIZE_BITS = 0) := by
        rw [hmod]
        intro h
        exact hc ⟨by omega, h.2⟩
      rw [if_neg hc, if_neg hc', hmod]
      rw [show i + 64 + 1 = (i + 1) + 64 by omega]
      exact ih (i + 1) _ _ (by omega)

/-- Words already pushed into the accumulator are only appended to. -/
theorem packLoop_acc (bs : List Bool) :
    ∀ i tmp acc pre, packLoop bs i tmp (pre ++ acc) =
      (pre ++ (packLoop bs i tmp acc).1, (packLoop bs i tmp acc).2) := by
  induction bs with
  | nil => intro i tmp acc pre; rfl
  | cons b rest ih =>
    intro i tmp acc pre
    rw [packLoop, packLoop]
    by_cases hc : i ≠ 0 ∧ i % UNIT_SIZE_BITS = 0
    · rw [if_pos hc, if_pos hc, List.append_assoc]
      exact ih (i + 1) _ (acc ++ [tmp]) pre
    · rw [if_neg hc, if_neg hc]
      exact ih (i + 1) _ acc pre

/-- Splitting the shifted value of a cons cell into the head bit at
position `k` and the tail shifted one further. -/
theorem bitsToNat_cons_shiftLeft (b : Bool) (l : List Bool) (k : Nat) :
    bitsToNat (b :: l) <<< k = (if b then 1 <<< k else 0) ||| (bitsToNat l <<< (k + 1)) := by
  apply Nat.eq_of_testBit_eq
  intro t
  rw [Nat.testBit_or, Nat.testBit_shiftLeft, Nat.testBit_shiftLeft, bitsToNat_testBit,
    bitsToNat_testBit]
  have hone : (if b then 1 <<< k else 0).testBit t = (b && decide (t = k)) := by
    cases b
    · simp
    · rw [if_pos rfl, Nat.one_shiftLeft, Nat.testBit_two_pow]
      simp [eq_comm]
  rw [hone]
  by_cases h1 : k ≤ t
  · by_cases h2 : k + 1 ≤ t
    · have hsub : t - k = (t - (k + 1)) + 1 := by omega
      rw [hsub, List.getD_cons_succ]
      have hne : ¬ (t = k) := by omega
      simp [h1, h2, hne]
    · have ht : t = k := by omega
      have hz : t - k = 0 := by omega
      rw [hz, List.getD_cons_zero]
      simp [h1, h2, ht]
  · have h2 : ¬ (k + 1 ≤ t) := by omega
    have hne : ¬ (t = k) := by omega
    simp [h1, h2, hne]

/-- On a span that stays inside one word (no push boundary), the packing
loop just ORs the bits into the accumulator word at offset `i % 64`. -/
theorem packLoop_segment (bs : List Bool) :
    ∀ i tmp acc, i % UNIT_SIZE_BITS + bs.length ≤ 64 →
      (i = 0 ∨ 0 < i % UNIT_SIZE_BITS ∨ bs = []) →
      packLoop bs i tmp acc = (acc, tmp ||| (bitsToNat bs <<< (i % UNIT_SIZE_BITS))) := by
  induction bs with
  | nil =>
    intro i tmp acc _ _
    simp [packLoop, bitsToNat, Nat.zero_shiftLeft]
  | cons b rest ih =>
    intro i tmp acc hlen hcond
    have hrestlen : i % UNIT_SIZE_BITS + rest.length + 1 ≤ 64 := by
      simpa [List.length_cons, Nat.add_assoc] using hlen
    have hnotpush : ¬(i ≠ 0 ∧ i % UNIT_SIZE_BITS = 0) := by
      rcases hcond with h | h | h
      · exact fun hc => hc.1 h
      · intro hc; omega
      · exact absurd h (List.cons_ne_nil b rest)
    rw [packLoop, if_neg hnotpush]
    by_cases hrest : rest = []
    · subst hrest
      rw [packLoop]
      cases b
      · simp [bitsToNat, Nat.zero_shiftLeft]
      · simp [bitsToNat]
    · have hrpos : 1 ≤ rest.length := by
        cases rest
        · exact absurd rfl hrest
        · simp
      have hmod : (i + 1) % UNIT_SIZE_BITS = i % UNIT_SIZE_BITS + 1 := by
        simp only [UNIT_SIZE_BITS] at hrestlen ⊢
        omega
      have hlen' : (i + 1) % UNIT_SIZE_BITS + rest.length ≤ 64 := by omega
      have hpos : 0 < (i + 1) % UNIT_SIZE_BITS := by omega
      rw [ih (i + 1) _ acc hlen' (Or.inr (Or.inl hpos)), hmod, bitsToNat_cons_shiftLeft]
      cases b
      · simp [Nat.zero_or]
      · simp [Nat.lor_assoc]

/-- A bit list that fits in one word packs to that single word. -/
theorem loadWords_short (bs : List Bool) (h : bs.length ≤ 64) :
    loadWords bs = [bitsToNat bs] := by
  rw [loadWords, packLoop_segment bs 0 0 []
    (by simpa [UNIT_SIZE_BITS] using h) (Or.inl rfl)]
  simp

/-- A bit list longer than one word packs to the word of its first 64
bits followed by the packing of the rest. -/
theorem loadWords_chunk (bs : List Bool) (h : 64 < bs.length) :
    loadWords bs = bitsToNat (bs.take 64) :: loadWords (bs.drop 64) := by
  have htake : (bs.take 64).length = 64 := by
    rw [List.length_take]
    omega
  obtain ⟨d, rest, hd⟩ : ∃ d rest, bs.drop 64 = d :: rest := by
    cases hdrop : bs.drop 64 with
    | nil =>
      have := List.length_drop 64 bs
      rw [hdrop] at this
      simp at this
      omega
    | cons d rest => exact ⟨d, rest, rfl⟩
  have hpack : packLoop bs 0 0 [] = packLoop (bs.take 64 ++ bs.drop 64) 0 0 [] := by
    rw [List.take_append_drop]
  rw [loadWords, hpack, packLoop_append, packLoop_segment (bs.take 64) 0 0 []
    (by simp [UNIT_SIZE_BITS, htake]) (Or.inl rfl), htake, hd]
  dsimp only
  simp only [Nat.zero_add, Nat.zero_or, Nat.zero_mod, Nat.shiftLeft_zero]
  rw [packLoop, if_pos (by constructor <;> simp [UNIT_SIZE_BITS])]
  simp only [List.nil_append]
  have hshift := packLoop_shift rest 1
    (if d then 0 ||| 1 <<< (64 % UNIT_SIZE_BITS) else 0) [bitsToNat (bs.take 64)] (by omega)
  rw [show (64 : Nat) + 1 = 1 + 64 by omega, hshift]
  have hacc := packLoop_acc rest 1 (if d then 0 ||| 1 <<< (64 % UNIT_SIZE_BITS) else 0)
    [] [bitsToNat (bs.take 64)]
  simp only [List.append_nil] at hacc
  have hmods : (64 : Nat) % UNIT_SIZE_BITS = 0 % UNIT_SIZE_BITS := by
    simp [UNIT_SIZE_BITS]
  rw [hacc, hmods]
  have hrhs : packLoop (d :: rest) 0 0 [] =
      packLoop rest (0 + 1) (if d = true then 0 ||| 1 <<< (0 % UNIT_SIZE_BITS) else 0) [] := by
    rw [packLoop, if_neg (show ¬((0 : Nat) ≠ 0 ∧ (0 : Nat) % UNIT_SIZE_BITS = 0) from by simp)]
  rw [loadWords, hrhs]
  simp

/-- `getD` commutes with `take` below the cut. -/
theorem getD_take_lt (l : List Bool) (n t : Nat) (h : t < n) (d : Bool) :
    (l.take n).getD t d = l.getD t d := by
  rw [List.getD_eq_getElem?_getD, List.getD_eq_getElem?_getD, List.getElem?_take, if_pos h]

/-- `getD` commutes with `drop`. -/
theorem getD_drop_add (l : List Bool) (n m : Nat) (d : Bool) :
    (l.drop n).getD m d = l.getD (n + m) d := by
  rw [List.getD_eq_getElem?_getD, List.getD_eq_getElem?_getD, List.getElem?_drop]

/-- Bit `t` of word `j` of the packed data is bit `64 * j + t` of the
input (false beyond the end): fuel-indexed version. -/
theorem loadWords_testBit_aux : ∀ n (bs : List Bool), bs.length ≤ n → ∀ j t, t < 64 →
    ((loadWords bs).getD j 0).testBit t = bs.getD (64 * j + t) false := by
  intro n
  induction n with
  | zero =>
    intro bs hb j t _
    have hnil : bs = [] := List.eq_nil_of_length_eq_zero (by omega)
    subst hnil
    rw [loadWords_short [] (by simp)]
    cases j <;> simp [bitsToNat, List.getD]
  | succ n ih =>
    intro bs hb j t ht
    by_cases hlen : bs.length ≤ 64
    · rw [loadWords_short bs hlen]
      cases j with
      | zero =>
        have h0 : [bitsToNat bs].getD 0 0 = bitsToNat bs := rfl
        rw [h0, bitsToNat_testBit, show 64 * 0 + t = t by omega]
      | succ j =>
        have h1 : [bitsToNat bs].getD (j + 1) 0 = 0 := rfl
        rw [h1, Nat.zero_testBit, List.getD_eq_default]
        omega
    · rw [loadWords_chunk bs (by omega)]
      cases j with
      | zero =>
        have h0 : (bitsToNat (bs.take 64) :: loadWords (bs.drop 64)).getD 0 0 =
            bitsToNat (bs.take 64) := rfl
        rw [h0, bitsToNat_testBit, show 64 * 0 + t = t by omega, getD_take_lt bs 64 t ht]
      | succ j =>
        have h1 : (bitsToNat (bs.take 64) :: loadWords (bs.drop 64)).getD (j + 1) 0 =
            (loadWords (bs.drop 64)).getD j 0 := rfl
        have hdl : (bs.drop 64).length ≤ n := by
          rw [List.length_drop]
          omega
        rw [h1, ih (bs.drop 64) hdl j t ht, getD_drop_add,
          show 64 + (64 * j + t) = 64 * (j + 1) + t by ring]

/-- Bit `t` of word `j` of the packed data is bit `64 * j + t` of the
input. -/
theorem loadWords_testBit (bs : List Bool) (j t : Nat) (ht : t < 64) :
    ((loadWords bs).getD j 0).testBit t = bs.getD (64 * j + t) false :=
  loadWords_testBit_aux bs.length bs (le_refl _) j t ht

/-- The packed data has `⌈length / 64⌉` words (one word for the empty
list): fuel-indexed version. -/
theorem loadWords_length_aux : ∀ n (bs : List Bool), bs.length ≤ n →
    (loadWords bs).length = (bs.length - 1) / 64 + 1 := by
  intro n
  induction n with
  | zero =>
    intro bs hb
    have hnil : bs = [] := List.eq_nil_of_length_eq_zero (by omega)
    subst hnil
    rw [loadWords_short [] (by simp)]
    simp
  | succ n ih =>
    intro bs hb
    by_cases hlen : bs.length ≤ 64
    · rw [loadWords_short bs hlen]
      simp only [List.length_singleton]
      omega
    · rw [loadWords_chunk bs (by omega), List.length_cons,
        ih (bs.drop 64) (by rw [List.length_drop]; omega), List.length_drop]
      omega

/-- The packed data has `⌈length / 64⌉` words (one word for the empty
list). -/
theorem loadWords_length (bs : List Bool) :
    (loadWords bs).length = (bs.length - 1) / 64 + 1 :=
  loadWords_length_aux bs.length bs (le_refl _)

/-- Every packed word is a valid `u64` value: fuel-indexed version. -/
theorem loadWords_lt_aux : ∀ n (bs : List Bool), bs.length ≤ n → ∀ j,
    (loadWords bs).getD j 0 < 2 ^ 64 := by
  intro n
  induction n with
  | zero =>
    intro bs hb j
    have hnil : bs = [] := List.eq_nil_of_length_eq_zero (by omega)
    subst hnil
    rw [loadWords_short [] (by simp)]
    cases j <;> simp [bitsToNat, List.getD] <;> positivity
  | succ n ih =>
    intro bs hb j
    by_cases hlen : bs.length ≤ 64
    · rw [loadWords_short bs hlen]
      cases j with
      | zero =>
        have h0 : [bitsToNat bs].getD 0 0 = bitsToNat bs := rfl
        rw [h0]
        calc bitsToNat bs < 2 ^ bs.length := bitsToNat_lt bs
        _ ≤ 2 ^ 64 := Nat.pow_le_pow_right (by omega) hlen
      | succ j =>
        have h1 : [bitsToNat bs].getD (j + 1) 0 = 0 := rfl
        rw [h1]
        positivity
    · rw [loadWords_chunk bs (by omega)]
      cases j with
      | zero =>
        have h0 : (bitsToNat (bs.take 64) :: loadWords (bs.drop 64)).getD 0 0 =
            bitsToNat (bs.take 64) := rfl
        rw [h0]
        calc bitsToNat (bs.take 64) < 2 ^ (bs.take 64).length := bitsToNat_lt _
        _ ≤ 2 ^ 64 := Nat.pow_le_pow_right (by omega) (by rw [List.length_take]; omega)
      | succ j =>
        have h1 : (bitsToNat (bs.take 64) :: loadWords (bs.drop 64)).getD (j + 1) 0 =
            (loadWords (bs.drop 64)).getD j 0 := rfl
        rw [h1]
        exact ih (bs.drop 64) (by rw [List.length_drop]; omega) j

/-- Every packed word is a valid `u64` value. -/
theorem loadWords_lt (bs : List Bool) (j : Nat) : (loadWords bs).getD j 0 < 2 ^ 64 :=
  loadWords_lt_aux bs.length bs (le_refl _) j

/-- In-bounds `get?` returns the `getD` value. -/
theorem get?_eq_getD (l : List Nat) (n : Nat) (h : n < l.length) :
    l.get? n = some (l.getD n 0) := by
  rw [List.getD_eq_getElem?_getD, List.get?_eq_getElem?, List.getElem?_eq_getElem h]
  simp

/-- Extracting one bit of a word equals testing that bit. -/
theorem shiftRight_and_one (w k : Nat) :
    (w >>> k) &&& 1 = if w.testBit k then 1 else 0 := by
  rw [Nat.and_one_is_mod, Nat.testBit_to_div_mod, Nat.shiftRight_eq_div_pow]
  rcases Nat.mod_two_eq_zero_or_one (w / 2 ^ k) with h | h <;> simp [h]

/-- `getD` through `map (· == '1')` at an in-bounds index. -/
theorem map_getD_lt (s : List Char) (i : Nat) (h : i < s.length) :
    (s.map (fun c => c == '1')).getD i false = (s.getD i '0' == '1') := by
  rw [List.getD_eq_getElem?_getD, List.getD_eq_getElem?_getD, List.getElem?_map,
    List.getElem?_eq_getElem h]
  simp

/-- The data list of `load_from_string` is `loadWords` of the parsed
bits. -/
theorem load_data (s : List Char) :
    (load_from_string s).data = loadWords (s.map (fun c => c == '1')) := rfl

/-- `load_from_string` records the string length. -/
theorem load_len (s : List Char) : (load_from_string s).len = s.length := rfl

/-- Word count of the loaded vector. -/
theorem load_data_length (s : List Char) :
    (load_from_string s).data.length = (s.length - 1) / 64 + 1 := by
  rw [load_data, loadWords_length, List.length_map]

/-- The `getD` value of `BitVector.access` on a loaded vector, at any
position: the corresponding parsed bit, or 0 beyond the data (where Rust
would panic). -/
theorem accessD_load (s : List Char) (p : Nat) :
    ((load_from_string s).access p).getD 0 =
      if (s.map (fun c => c == '1')).getD p false then 1 else 0 := by
  by_cases hp : p / UNIT_SIZE_BITS < (load_from_string s).data.length
  · rw [BitVector.access, get?_eq_getD _ _ hp]
    simp only [Option.map_some', Option.getD_some]
    rw [shiftRight_and_one]
    rw [show (load_from_string s).data.getD (p / UNIT_SIZE_BITS) 0 =
      (loadWords (s.map (fun c => c == '1'))).getD (p / 64) 0 from rfl]
    rw [show p % UNIT_SIZE_BITS = p % 64 from rfl]
    rw [loadWords_testBit _ _ _ (by omega : p % 64 < 64), Nat.div_add_mod]
  · rw [BitVector.access]
    have hnone : (load_from_string s).data.get? (p / UNIT_SIZE_BITS) = none :=
      List.get?_eq_none.mpr (by omega)
    rw [hnone]
    have hbits : (s.map (fun c => c == '1')).getD p false = false := by
      apply List.getD_eq_default
      rw [List.length_map]
      rw [load_data_length] at hp
      simp only [UNIT_SIZE_BITS] at hp
      omega
    rw [hbits]
    simp

/-- C6 amended core: `access` after `load_from_string` returns the parsed
bit of the character at that position — `1` exactly for `'1'`, `0` for
every other character (no validation ever happens). -/
theorem access_load (s : List Char) (i : Nat) (h : i < s.length) :
    (load_from_string s).access i = some (if s.getD i '0' == '1' then 1 else 0) := by
  have hp : i / UNIT_SIZE_BITS < (load_from_string s).data.length := by
    rw [load_data_length]
    simp only [UNIT_SIZE_BITS]
    omega
  rw [BitVector.access, get?_eq_getD _ _ hp]
  simp only [Option.map_some']
  congr 1
  rw [shiftRight_and_one]
  rw [show (load_from_string s).data.getD (i / UNIT_SIZE_BITS) 0 =
    (loadWords (s.map (fun c => c == '1'))).getD (i / 64) 0 from rfl]
  rw [show i % UNIT_SIZE_BITS = i % 64 from rfl]
  rw [loadWords_testBit _ _ _ (by omega : i % 64 < 64), Nat.div_add_mod, map_getD_lt s i h]

/-- Bits of the OR-accumulation of single-bit values shifted to their
positions. -/
theorem foldl_or_testBit (g : Nat → Nat) (hg : ∀ k, g k ≤ 1) :
    ∀ m t, ((List.range m).foldl (fun acc k => acc ||| (g k <<< k)) 0).testBit t =
      (decide (t < m) && decide (g t = 1)) := by
  intro m
  induction m with
  | zero => intro t; simp [Nat.zero_testBit]
  | succ m ih =>
    intro t
    rw [List.range_succ, List.foldl_append]
    simp only [List.foldl_cons, List.foldl_nil]
    rw [Nat.testBit_or, ih t, Nat.testBit_shiftLeft]
    by_cases htm : t < m
    · have h1 : ¬ m ≤ t := by omega
      simp [htm, h1, show t < m + 1 by omega]
    · by_cases hte : t = m
      · subst hte
        have h1 : ¬ t < t := by omega
        simp only [h1, decide_False, Bool.false_and, Bool.false_or,
          show t < t + 1 by omega, decide_True, Bool.true_and, le_refl, Nat.sub_self]
        rcases Nat.le_one_iff_eq_zero_or_eq_one.mp (hg t) with h | h <;>
          simp [h, Nat.zero_testBit]
      · have h1 : ¬ t < m + 1 := by omega
        have h2 : m ≤ t := by omega
        have h3 : 1 ≤ t - m := by omega
        have h4 : (g m).testBit (t - m) = false := by
          apply Nat.testBit_lt_two_pow
          calc g m ≤ 1 := hg m
          _ < 2 ^ 1 := by omega
          _ ≤ 2 ^ (t - m) := Nat.pow_le_pow_right (by omega) h3
        simp [htm, h1, h2, h4]

/-- Bits of the window specified by the C9 claim: position `i + t` of the
parsed input when `t` is inside the window span, `false` otherwise. -/
theorem c9_window_testBit (s : List Char) (i m t : Nat) :
    ((List.range m).foldl
        (fun acc k => acc ||| ((((load_from_string s).access (i + k)).getD 0) <<< k)) 0).testBit t
      = (decide (t < m) && (s.map (fun c => c == '1')).getD (i + t) false) := by
  rw [foldl_or_testBit (fun k => ((load_from_string s).access (i + k)).getD 0)
    (fun k => by simp only; rw [accessD_load]; split <;> omega) m t]
  congr 1
  rw [accessD_load]
  cases hb : (s.map (fun c => c == '1')).getD (i + t) false <;> simp [hb]

/-- Unfolding equation for `access_block` once the first word read is
known to succeed. -/
theorem access_block_eq (bv : BitVector) (index w : Nat)
    (hw : bv.data.get? (index / UNIT_SIZE_BITS) = some w) :
    bv.access_block index =
      if index / UNIT_SIZE_BITS = bv.data.length - 1 ∨ index % UNIT_SIZE_BITS = 0 then
        some (w >>> (index % UNIT_SIZE_BITS))
      else
        match bv.data.get? (index / UNIT_SIZE_BITS + 1) with
        | none => none
        | some w2 =>
          some ((w >>> (index % UNIT_SIZE_BITS)) |||
            ((w2 <<< (UNIT_SIZE_BITS - index % UNIT_SIZE_BITS)) % 2 ^ UNIT_SIZE_BITS)) := by
  simp only [BitVector.access_block, hw]

/-- On a loaded vector, `access_block i` (for `i < n`) succeeds and the
window's bit `t` is bit `i + t` of the parsed input for `t < 64`, and
`false` otherwise. -/
theorem access_block_load (s : List Char) (i : Nat) (hi : i < s.length) :
    ∃ w, (load_from_string s).access_block i = some w ∧
      ∀ t, w.testBit t =
        (decide (t < 64) && (s.map (fun c => c == '1')).getD (i + t) false) := by
  have hL : (load_from_string s).data.length = (s.length - 1) / 64 + 1 := load_data_length s
  have hvi : i / UNIT_SIZE_BITS < (load_from_string s).data.length := by
    rw [hL]
    simp only [UNIT_SIZE_BITS]
    omega
  have hw := get?_eq_getD _ _ hvi
  by_cases hc : i / UNIT_SIZE_BITS = (load_from_string s).data.length - 1 ∨
      i % UNIT_SIZE_BITS = 0
  · refine ⟨_, by rw [access_block_eq _ _ _ hw, if_pos hc], ?_⟩
    intro t
    have hc64 : i / 64 = (load_from_string s).data.length - 1 ∨ i % 64 = 0 := hc
    simp only [UNIT_SIZE_BITS, load_data]
    rw [Nat.testBit_shiftRight]
    by_cases ht : i % 64 + t < 64
    · rw [loadWords_testBit _ _ _ ht, show 64 * (i / 64) + (i % 64 + t) = i + t by omega]
      cases hb : (s.map (fun c => c == '1')).getD (i + t) false <;>
        simp [hb, show t < 64 by omega]
    · have hfalse : ((loadWords (s.map (fun c => c == '1'))).getD (i / 64) 0).testBit
          (i % 64 + t) = false := by
        apply Nat.testBit_lt_two_pow
        calc (loadWords (s.map (fun c => c == '1'))).getD (i / 64) 0 < 2 ^ 64 :=
          loadWords_lt _ _
        _ ≤ 2 ^ (i % 64 + t) := Nat.pow_le_pow_right (by omega) (by omega)
      rw [hfalse]
      rcases hc64 with hlast | hsh0
      · have hge : s.length ≤ i + t := by
          rw [hL] at hlast
          omega
        rw [List.getD_eq_default _ _ (by rw [List.length_map]; omega)]
        simp
      · have hngt : ¬ t < 64 := by omega
        simp [hngt]
  · have hcc := not_or.mp hc
    have h2 : i / UNIT_SIZE_BITS + 1 < (load_from_string s).data.length := by
      have := hcc.1
      omega
    have hw2 := get?_eq_getD _ _ h2
    refine ⟨((load_from_string s).data.getD (i / UNIT_SIZE_BITS) 0 >>> (i % UNIT_SIZE_BITS)) |||
      (((load_from_string s).data.getD (i / UNIT_SIZE_BITS + 1) 0 <<<
        (UNIT_SIZE_BITS - i % UNIT_SIZE_BITS)) % 2 ^ UNIT_SIZE_BITS), ?_, ?_⟩
    · rw [access_block_eq _ _ _ hw, if_neg hc, hw2]
    · intro t
      have hsh : i % 64 ≠ 0 := hcc.2
      have hnl : i / 64 ≠ (load_from_string s).data.length - 1 := hcc.1
      have hbig : 64 * (i / 64) + 65 ≤ s.length := by
        rw [hL] at hnl hvi
        simp only [UNIT_SIZE_BITS] at hnl hvi
        omega
      simp only [UNIT_SIZE_BITS, load_data]
      rw [Nat.testBit_or, Nat.testBit_shiftRight, Nat.testBit_mod_two_pow,
        Nat.testBit_shiftLeft]
      by_cases ht64 : t < 64
      · by_cases hup : 64 - i % 64 ≤ t
        · have hlow : ((loadWords (s.map (fun c => c == '1'))).getD (i / 64) 0).testBit
              (i % 64 + t) = false := by
            apply Nat.testBit_lt_two_pow
            calc (loadWords (s.map (fun c => c == '1'))).getD (i / 64) 0 < 2 ^ 64 :=
              loadWords_lt _ _
            _ ≤ 2 ^ (i % 64 + t) := Nat.pow_le_pow_right (by omega) (by omega)
          rw [hlow, loadWords_testBit _ _ (t - (64 - i % 64)) (by omega),
            show 64 * (i / 64 + 1) + (t - (64 - i % 64)) = i + t by omega]
          cases hb : (s.map (fun c => c == '1')).getD (i + t) false <;>
            simp [hb, ht64, hup]
        · rw [loadWords_testBit _ _ _ (by omega : i % 64 + t < 64),
            show 64 * (i / 64) + (i % 64 + t) = i + t by omega]
          simp only [hup, decide_False, Bool.false_and, Bool.and_false, Bool.or_false]
          cases hb : (s.map (fun c => c == '1')).getD (i + t) false <;> simp [hb, ht64]
      · have hlow : ((loadWords (s.map (fun c => c == '1'))).getD (i / 64) 0).testBit
            (i % 64 + t) = false := by
          apply Nat.testBit_lt_two_pow
          calc (loadWords (s.map (fun c => c == '1'))).getD (i / 64) 0 < 2 ^ 64 :=
            loadWords_lt _ _
          _ ≤ 2 ^ (i % 64 + t) := Nat.pow_le_pow_right (by omega) (by omega)
        rw [hlow]
        simp [ht64]

/-- C9: CONFIRMED.  For every loaded 0/1 string of length `n ≥ 1` and
every `i < n`, `access_block i` equals the bitwise OR over
`k ∈ [0, min(64, n - i))` of `access(i + k) <<< k`. -/
theorem c9_access_block_or_of_access (s : List Char)
    (h01 : ∀ c ∈ s, c = '0' ∨ c = '1') (hn : 1 ≤ s.length) (i : Nat)
    (hi : i < s.length) :
    (load_from_string s).access_block i =
      some ((List.range (min 64 (s.length - i))).foldl
        (fun acc k => acc ||| ((((load_from_string s).access (i + k)).getD 0) <<< k)) 0) := by
  obtain ⟨w, hw, hbits⟩ := access_block_load s i hi
  rw [hw]
  congr 1
  apply Nat.eq_of_testBit_eq
  intro t
  rw [hbits t, c9_window_testBit]
  cases hb : (s.map (fun c => c == '1')).getD (i + t) false
  · simp
  · have hlt : i + t < s.length := by
      by_contra hge
      rw [List.getD_eq_default _ _ (by rw [List.length_map]; omega)] at hb
      exact Bool.noConfusion hb
    simp only [Bool.and_true]
    rw [decide_eq_decide]
    omega

/-- C6 (amended): construction from a string with characters outside
{'0','1'} does NOT fail; `load_from_string` always produces a vector of
the full string length, reading every character other than `'1'` as a 0
bit. -/
theorem c6_load_parses_non_one_as_zero (s : List Char) (i : Nat) (h : i < s.length) :
    (load_from_string s).len = s.length ∧
    (load_from_string s).access i = some (if s.getD i '0' == '1' then 1 else 0) :=
  ⟨load_len s, access_load s i h⟩

/-- Witness for the amended C6 at the malformed input `"2"`. -/
theorem c6_load_parses_non_one_as_zero_witness :
    (0 : Nat) < ([' '] : List Char).length ∧
    ((load_from_string [' ']).len = ([' '] : List Char).length ∧
      (load_from_string [' ']).access 0 =
        some (if ([' '] : List Char).getD 0 '0' == '1' then 1 else 0)) :=
  ⟨by decide, c6_load_parses_non_one_as_zero [' '] 0 (by decide)⟩

/-- Witness for C9 on the two-character string `"10"` at `i = 0`. -/
theorem c9_access_block_or_of_access_witness :
    (∀ c ∈ (['1', '0'] : List Char), c = '0' ∨ c = '1') ∧
    1 ≤ (['1', '0'] : List Char).length ∧
    (0 : Nat) < (['1', '0'] : List Char).length ∧
    (load_from_string ['1', '0']).access_block 0 =
      some ((List.range (min 64 ((['1', '0'] : List Char).length - 0))).foldl
        (fun acc k =>
          acc ||| ((((load_from_string ['1', '0']).access (0 + k)).getD 0) <<< k)) 0) :=
  ⟨by decide, by decide, by decide,
    c9_access_block_or_of_access ['1', '0'] (by decide) (by decide) 0 (by decide)⟩

/-- C10: CONFIRMED.  After `load_from_string` on a 0/1 string of length
`n ≥ 1` the data vector holds exactly `⌈n / 64⌉` words, every padding bit
at a position in `[n, ⌈n / 64⌉ * 64)` is 0, and initialising the rank or
select structures leaves `data` and `len` unchanged (all queries are pure
functions of the vector in this embedding, so they cannot mutate it). -/
theorem c10_data_words_padding_invariant (s : List Char)
    (h01 : ∀ c ∈ s, c = '0' ∨ c = '1') (hn : 1 ≤ s.length) :
    (load_from_string s).data.length = (s.length + 63) / 64 ∧
    (∀ p, s.length ≤ p → p < (load_from_string s).data.length * 64 →
      ((load_from_string s).data.getD (p / 64) 0).testBit (p % 64) = false) ∧
    (∀ bv', (load_from_string s).init_rank_structures = some bv' →
      bv'.data = (load_from_string s).data ∧ bv'.len = (load_from_string s).len) ∧
    (∀ bv', (load_from_string s).init_select_structures = some bv' →
      bv'.data = (load_from_string s).data ∧ bv'.len = (load_from_string s).len) := by
  refine ⟨?_, ?_, ?_, ?_⟩
  · rw [load_data_length]
    omega
  · intro p hp _
    rw [show (load_from_string s).data.getD (p / 64) 0 =
      (loadWords (s.map (fun c => c == '1'))).getD (p / 64) 0 from rfl]
    rw [loadWords_testBit _ _ _ (by omega : p % 64 < 64)]
    apply List.getD_eq_default
    rw [List.length_map]
    omega
  · intro bv' h
    simp only [BitVector.init_rank_structures] at h
    cases hr : RankAccelerator.init (load_from_string s) with
    | none => rw [hr] at h; simp at h
    | some r =>
      rw [hr] at h
      simp at h
      cases h
      exact ⟨rfl, rfl⟩
  · intro bv' h
    simp only [BitVector.init_select_structures] at h
    cases h0 : SelectAccelerator.init false (load_from_string s) with
    | none => rw [h0] at h; simp at h
    | some a0 =>
      rw [h0] at h
      cases h1 : SelectAccelerator.init true (load_from_string s) with
      | none => rw [h1] at h; simp at h
      | some a1 =>
        rw [h1] at h
        simp at h
        cases h
        exact ⟨rfl, rfl⟩

/-- Witness for C10 on the string `"10"`. -/
theorem c10_data_words_padding_invariant_witness :
    (∀ c ∈ (['1', '0'] : List Char), c = '0' ∨ c = '1') ∧
    1 ≤ (['1', '0'] : List Char).length ∧
    ((load_from_string ['1', '0']).data.length = ((['1', '0'] : List Char).length + 63) / 64 ∧
    (∀ p, (['1', '0'] : List Char).length ≤ p →
      p < (load_from_string ['1', '0']).data.length * 64 →
      ((load_from_string ['1', '0']).data.getD (p / 64) 0).testBit (p % 64) = false) ∧
    (∀ bv', (load_from_string ['1', '0']).init_rank_structures = some bv' →
      bv'.data = (load_from_string ['1', '0']).data ∧
      bv'.len = (load_from_string ['1', '0']).len) ∧
    (∀ bv', (load_from_string ['1', '0']).init_select_structures = some bv' →
      bv'.data = (load_from_string ['1', '0']).data ∧
      bv'.len = (load_from_string ['1', '0']).len)) :=
  ⟨by decide, by decide,
    c10_data_words_padding_invariant ['1', '0'] (by decide) (by decide)⟩
